import Mathlib

set_option linter.unusedVariables false

/-!
Verification of the rendered-line buffer and search/viewport engine of the
flow log viewer, shallowly embedded from src/ui/rendered_line.rs.

Heights are i32 in the source and are modelled as Int; usize values are
modelled as Nat. Casts with `as usize` are modelled by Int.toNat. Operations
that can hit a Rust panic (Option::unwrap on None, out-of-range indexing,
usize subtraction underflow) are modelled with Except Unit: `.error ()`
marks the panic, while genuinely optional results keep Option, mirroring
the distinction between fatal precondition violations and ordinary
absence results. Painting side effects on the ncurses window are not part
of the state; the number of repaint calls performed by search is returned
explicitly, and the external Highlighter collaborator is passed in as a
function giving the row offsets it would return.
-/

/-- Helper for substring containment over character lists: true when the
needle occurs (contiguously) somewhere in the haystack. -/
def charsContain (needle : List Char) : List Char → Bool
  | [] => needle.isEmpty
  | c :: rest => needle.isPrefixOf (c :: rest) || charsContain needle rest

/-- Modelled from the spec: the Line type of core/line.rs is not among the
given sources; search tests literal, case-sensitive substring containment
of the needle in the text of the line, which is the semantics of the Rust
str::contains used by Line::contains. -/
def lineContains (text needle : String) : Bool :=
  charsContain needle.toList text.toList

deriving instance DecidableEq for Except

/-- One wrapped line record: the text of the underlying logical line, its
rendered height in rows (i32 in the source), and the optional ascending
row offsets currently carrying a match. -/
structure RenderedLine where
  line : String
  height : Int
  found_matches : Option (List Nat)
deriving DecidableEq

/-- A (line index, match index) cursor, as in the MatchedLine struct. -/
structure MatchedLine where
  line : Nat
  match_index : Nat
deriving DecidableEq

/-- Modelled from the spec: the Viewport type of ui/printer.rs is not among
the given sources; it carries reverse_index (rows from the very bottom of
the buffer to the trailing edge of the window) and the visible row count. -/
structure Viewport where
  reverse_index : Nat
  rows : Nat
deriving DecidableEq

/-- Modelled from the spec: limit() is reverse_index plus the visible row
count, the leading edge of the window. -/
def Viewport.limit (v : Viewport) : Nat :=
  v.reverse_index + v.rows

/-- RenderedLine::update_found_matches: replaces found_matches and reports
whether the stored value changed. -/
def RenderedLine.update_found_matches (r : RenderedLine)
    (found_matches : Option (List Nat)) : RenderedLine × Bool :=
  if r.found_matches ≠ found_matches then
    ({ r with found_matches := found_matches }, true)
  else
    (r, false)

/-- RenderedLine::highlight: delegates to the external Highlighter
collaborator (passed here as the function hl on the needle, the line and
width being fixed context) and always wraps its offsets in some. -/
def RenderedLine.highlight (_r : RenderedLine) (hl : String → List Nat)
    (text : String) : Option (List Nat) :=
  some (hl text)

/-- RenderedLine::search: returns the updated record, whether the line
matched, and how many repaints were issued (print is called once when the
line matches, and once more when found_matches changed although the line
did not match). -/
def RenderedLine.search (r : RenderedLine) (text : String)
    (hl : String → List Nat) : RenderedLine × Bool × Nat :=
  let is_match := lineContains r.line text
  let paints_on_match : Nat := if is_match then 1 else 0
  let found_matches := if is_match then r.highlight hl text else none
  let step := r.update_found_matches found_matches
  let paints := if step.2 && !is_match then paints_on_match + 1 else paints_on_match
  (step.1, is_match, paints)

/-- RenderedLine::match_count: unwraps found_matches; `.error ()` marks the
panic on an absent value. -/
def RenderedLine.match_count (r : RenderedLine) : Except Unit Nat :=
  match r.found_matches with
  | some ms => .ok ms.length
  | none => .error ()

/-- The collection of rendered lines in chronological (oldest-first) order. -/
structure RenderedLineCollection where
  entries : List RenderedLine
deriving DecidableEq

/-- The Height trait implementation: fold summing the heights. -/
def heightSum (l : List RenderedLine) : Int :=
  l.foldl (fun sum current => sum + current.height) 0

/-- RenderedLineCollection::height. -/
def RenderedLineCollection.height (c : RenderedLineCollection) : Int :=
  heightSum c.entries

/-- RenderedLineCollection::len. -/
def RenderedLineCollection.len (c : RenderedLineCollection) : Nat :=
  c.entries.length

/-- RenderedLineCollection::height_up_to_index: sum of the heights of the
first index entries (iter().take(index)). -/
def RenderedLineCollection.height_up_to_index (c : RenderedLineCollection)
    (index : Nat) : Int :=
  heightSum (c.entries.take index)

/-- RenderedLineCollection::last_lines_height: sum of the heights of the
last count entries (iter().rev().take(count)). -/
def RenderedLineCollection.last_lines_height (c : RenderedLineCollection)
    (count : Nat) : Int :=
  heightSum (c.entries.reverse.take count)

/-- RenderedLineCollection::buffer_reverse_index: distance in rows from the
bottom of the buffer to the given match row. Indexing an absent line,
unwrapping absent found_matches, or indexing an absent match offset each
panic, marked by `.error ()`. -/
def RenderedLineCollection.buffer_reverse_index (c : RenderedLineCollection)
    (line_index match_index : Nat) : Except Unit Int :=
  match c.entries[line_index]? with
  | none => .error ()
  | some r =>
    match r.found_matches with
    | none => .error ()
    | some ms =>
      match ms[match_index]? with
      | none => .error ()
      | some offset => .ok (heightSum (c.entries.drop line_index) - (offset : Int))

/-- The FindMatch trait on an enumerated sequence: the first pair whose
record has found_matches present yields that index together with the last
match index of the record (match_count() - 1). -/
def find_match : List (Nat × RenderedLine) → Option MatchedLine
  | [] => none
  | (i, r) :: rest =>
    match r.found_matches with
    | some ms => some ⟨i, ms.length - 1⟩
    | none => find_match rest

/-- RenderedLineCollection::last_match: find_match over the reversed,
enumerated entries, then unwrap; `.error ()` marks the panic when no entry
carries a match. -/
def RenderedLineCollection.last_match (c : RenderedLineCollection) :
    Except Unit MatchedLine :=
  match find_match c.entries.reverse.enum with
  | some m => .ok m
  | none => .error ()

/-- RenderedLineCollection::next_match: find_match over the enumerated
entries after skipping current_index + 1 of them. -/
def RenderedLineCollection.next_match (c : RenderedLineCollection)
    (current_index : Nat) : Option MatchedLine :=
  find_match (c.entries.enum.drop (current_index + 1))

/-- RenderedLineCollection::previous_match: find_match over the reversed
enumerated entries after skipping len - current_index of them. The usize
subtraction len - current_index underflows (a panic in debug builds) when
current_index exceeds len, marked by `.error ()`. -/
def RenderedLineCollection.previous_match (c : RenderedLineCollection)
    (current_index : Nat) : Except Unit (Option MatchedLine) :=
  if c.entries.length < current_index then .error ()
  else .ok (find_match (c.entries.enum.reverse.drop (c.entries.length - current_index)))

/-- The inner loop of viewport_match over the match offsets of one line:
the first enumerated offset with accumulated_height + offset at most limit. -/
def first_visible_offset (acc limit : Nat) : Nat → List Nat → Option Nat
  | _, [] => none
  | j, offset :: rest =>
    if acc + offset ≤ limit then some j
    else first_visible_offset acc limit (j + 1) rest

/-- The loop of RenderedLineCollection::viewport_match over the reversed
enumerated entries, carrying the accumulated height: a line whose
accumulated height has reached reverse_index and that has a match offset
within limit yields its cursor; otherwise the height of the line is added
and the loop breaks once the accumulated height reaches limit. -/
def viewport_scan (reverse_index limit : Nat) :
    Nat → List (Nat × RenderedLine) → Option MatchedLine
  | _, [] => none
  | acc, (i, line) :: rest =>
    match (if reverse_index ≤ acc then
             match line.found_matches with
             | some ms => (first_visible_offset acc limit 0 ms).map (fun j => MatchedLine.mk i j)
             | none => none
           else none) with
    | some m => some m
    | none =>
      if limit ≤ acc + line.height.toNat then none
      else viewport_scan reverse_index limit (acc + line.height.toNat) rest

/-- RenderedLineCollection::viewport_match. -/
def RenderedLineCollection.viewport_match (c : RenderedLineCollection)
    (viewport : Viewport) : Option MatchedLine :=
  viewport_scan viewport.reverse_index viewport.limit 0 c.entries.reverse.enum

/-- RenderedLineCollection::is_match_in_viewport: indexes the matched line
(panicking when out of range, marked `.error ()`), and when the
accumulated height from that line to the end reaches reverse_index,
unwraps its found_matches (panicking on absence) and reports whether any
offset keeps accumulated_height + offset within limit. The match_index of
the cursor is never consulted. -/
def RenderedLineCollection.is_match_in_viewport (c : RenderedLineCollection)
    (matched_line : MatchedLine) (viewport : Viewport) : Except Unit Bool :=
  let limit := viewport.limit
  let accumulated_height := (heightSum (c.entries.drop matched_line.line)).toNat
  match c.entries[matched_line.line]? with
  | none => .error ()
  | some line =>
    if viewport.reverse_index ≤ accumulated_height then
      match line.found_matches with
      | none => .error ()
      | some ms => .ok (ms.any (fun offset => accumulated_height + offset ≤ limit))
    else .ok false

/-- The Index implementation on RenderedLineCollection: indexing out of
range panics, marked `.error ()`. -/
def RenderedLineCollection.index_entry (c : RenderedLineCollection)
    (i : Nat) : Except Unit RenderedLine :=
  match c.entries[i]? with
  | some r => .ok r
  | none => .error ()

/-- Text content used by the concrete example buffers; the text itself is
irrelevant to the height and match bookkeeping. -/
def exampleText : String := ""

/-- The example buffer of the spec: line heights [1, 2, 1], found_matches
[0, 1] on the middle line only. -/
def sampleBuffer : RenderedLineCollection :=
  ⟨[⟨exampleText, 1, none⟩, ⟨exampleText, 2, some [0, 1]⟩, ⟨exampleText, 1, none⟩]⟩

/-! ### Helper lemmas about heights -/

theorem heightSum_aux (l : List RenderedLine) (a : Int) :
    l.foldl (fun sum current => sum + current.height) a =
      a + (l.map RenderedLine.height).sum := by
  induction l generalizing a with
  | nil => simp
  | cons hd tl ih =>
    simp only [List.foldl_cons, List.map_cons, List.sum_cons, ih (a + hd.height)]
    ring

theorem heightSum_eq (l : List RenderedLine) :
    heightSum l = (l.map RenderedLine.height).sum := by
  unfold heightSum
  rw [heightSum_aux]
  simp

theorem heightSum_reverse (l : List RenderedLine) :
    heightSum l.reverse = heightSum l := by
  simp [heightSum_eq, List.sum_reverse]

/-! ### Helper lemmas about find_match -/

theorem find_match_eq_none {l : List (Nat × RenderedLine)} :
    find_match l = none ↔ ∀ p ∈ l, p.2.found_matches = none := by
  induction l with
  | nil => simp [find_match]
  | cons hd tl ih =>
    obtain ⟨i, r⟩ := hd
    cases hfm : r.found_matches with
    | some ms => simp [find_match, hfm]
    | none => simp [find_match, hfm, ih]

theorem snd_mem_of_mem_enumFrom {α : Type} {b : Nat} {l : List α} {p : Nat × α}
    (h : p ∈ List.enumFrom b l) : p.2 ∈ l := by
  induction l generalizing b with
  | nil => simp at h
  | cons hd tl ih =>
    rw [List.enumFrom_cons] at h
    rcases List.mem_cons.mp h with h1 | h2
    · rw [h1]
      exact List.mem_cons_self _ _
    · exact List.mem_cons_of_mem _ (ih h2)

theorem mem_enumFrom_of_mem {α : Type} {l : List α} {x : α} (h : x ∈ l) (b : Nat) :
    ∃ i, (i, x) ∈ List.enumFrom b l := by
  induction l generalizing b with
  | nil => simp at h
  | cons hd tl ih =>
    rcases List.mem_cons.mp h with h1 | h2
    · exact ⟨b, by rw [h1, List.enumFrom_cons]; exact List.mem_cons_self _ _⟩
    · obtain ⟨i, hi⟩ := ih h2 (b + 1)
      exact ⟨i, by rw [List.enumFrom_cons]; exact List.mem_cons_of_mem _ hi⟩

theorem find_match_enumFrom_some {b : Nat} {l : List RenderedLine} {m : MatchedLine}
    (h : find_match (List.enumFrom b l) = some m) :
    ∃ j r ms, l[j]? = some r ∧ m.line = b + j ∧ r.found_matches = some ms ∧
      m.match_index = ms.length - 1 ∧
      ∀ k r', k < j → l[k]? = some r' → r'.found_matches = none := by
  induction l generalizing b with
  | nil => simp [find_match] at h
  | cons hd tl ih =>
    rw [List.enumFrom_cons] at h
    cases hfm : hd.found_matches with
    | some ms =>
      simp only [find_match, hfm, Option.some.injEq] at h
      subst h
      refine ⟨0, hd, ms, by simp, by simp, hfm, by simp, ?_⟩
      intro k r' hk
      omega
    | none =>
      simp only [find_match, hfm] at h
      obtain ⟨j, r, ms, hj, hline, hm, hmi, hmin⟩ := ih h
      refine ⟨j + 1, r, ms, by simpa using hj, by omega, hm, hmi, ?_⟩
      intro k r' hk hget
      cases k with
      | zero =>
        simp at hget
        rw [← hget]
        exact hfm
      | succ k' =>
        exact hmin k' r' (by omega) (by simpa using hget)

theorem find_match_enumFrom_eq {b j : Nat} {l : List RenderedLine} {r : RenderedLine}
    {ms : List Nat} (hj : l[j]? = some r) (hm : r.found_matches = some ms)
    (hmin : ∀ k r', k < j → l[k]? = some r' → r'.found_matches = none) :
    find_match (List.enumFrom b l) = some ⟨b + j, ms.length - 1⟩ := by
  induction l generalizing b j with
  | nil => simp at hj
  | cons hd tl ih =>
    cases j with
    | zero =>
      simp only [List.getElem?_cons_zero, Option.some.injEq] at hj
      subst hj
      rw [List.enumFrom_cons]
      simp [find_match, hm]
    | succ j' =>
      have hhd : hd.found_matches = none :=
        hmin 0 hd (Nat.succ_pos _) (by simp)
      rw [List.enumFrom_cons]
      simp only [find_match, hhd]
      have hrec := ih (b := b + 1) (j := j') (by simpa using hj)
        (fun k r' hk hget => hmin (k + 1) r' (by omega) (by simpa using hget))
      rw [hrec]
      congr 2
      omega

theorem find_match_enumFrom_reverse_some {b : Nat} {l : List RenderedLine}
    {m : MatchedLine} (h : find_match (List.enumFrom b l).reverse = some m) :
    ∃ j r ms, l[j]? = some r ∧ m.line = b + j ∧ r.found_matches = some ms ∧
      m.match_index = ms.length - 1 ∧
      ∀ k r', j < k → l[k]? = some r' → r'.found_matches = none := by
  induction l using List.reverseRecOn generalizing b with
  | nil => simp [find_match] at h
  | append_singleton t x ih =>
    rw [List.enumFrom_append, List.reverse_append] at h
    simp only [List.enumFrom_cons, List.enumFrom_nil, List.reverse_cons,
      List.reverse_nil, List.nil_append, List.singleton_append] at h
    cases hfm : x.found_matches with
    | some ms =>
      simp only [find_match, hfm, Option.some.injEq] at h
      subst h
      refine ⟨t.length, x, ms, List.getElem?_concat_length t x, by simp, hfm,
        by simp, ?_⟩
      intro k r' hk hget
      have : (t ++ [x]).length ≤ k := by
        simp only [List.length_append, List.length_cons, List.length_nil]
        omega
      rw [List.getElem?_eq_none this] at hget
      exact absurd hget (by simp)
    | none =>
      simp only [find_match, hfm] at h
      obtain ⟨j, r, ms, hj, hline, hm, hmi, hmax⟩ := ih h
      have hjlt : j < t.length := by
        have := List.getElem?_eq_some_iff.mp hj
        exact this.1
      refine ⟨j, r, ms, ?_, hline, hm, hmi, ?_⟩
      · rw [List.getElem?_append_left hjlt]
        exact hj
      · intro k r' hk hget
        rcases Nat.lt_trichotomy k t.length with hklt | hkeq | hkgt
        · rw [List.getElem?_append_left hklt] at hget
          exact hmax k r' hk hget
        · subst hkeq
          rw [List.getElem?_concat_length] at hget
          injection hget with hget
          rw [← hget]
          exact hfm
        · have : (t ++ [x]).length ≤ k := by
            simp only [List.length_append, List.length_cons, List.length_nil]
            omega
          rw [List.getElem?_eq_none this] at hget
          exact absurd hget (by simp)

theorem find_match_enumFrom_reverse_eq {b j : Nat} {l : List RenderedLine}
    {r : RenderedLine} {ms : List Nat} (hj : l[j]? = some r)
    (hm : r.found_matches = some ms)
    (hmax : ∀ k r', j < k → l[k]? = some r' → r'.found_matches = none) :
    find_match (List.enumFrom b l).reverse = some ⟨b + j, ms.length - 1⟩ := by
  induction l using List.reverseRecOn generalizing b with
  | nil => exact absurd hj (by simp)
  | append_singleton t x ih =>
    rw [List.enumFrom_append, List.reverse_append]
    simp only [List.enumFrom_cons, List.enumFrom_nil, List.reverse_cons,
      List.reverse_nil, List.nil_append, List.singleton_append]
    have hjlen : j < (t ++ [x]).length := (List.getElem?_eq_some_iff.mp hj).1
    by_cases hjt : j = t.length
    · subst hjt
      rw [List.getElem?_concat_length] at hj
      injection hj with hj
      subst hj
      simp [find_match, hm]
    · have hjlt : j < t.length := by
        simp only [List.length_append, List.length_cons, List.length_nil] at hjlen
        omega
      have hxnone : x.found_matches = none := by
        refine hmax t.length x hjlt ?_
        exact List.getElem?_concat_length t x
      simp only [find_match, hxnone]
      refine ih ?_ ?_
      · rw [List.getElem?_append_left hjlt] at hj
        exact hj
      · intro k r' hk hget
        have hklt : k < t.length := (List.getElem?_eq_some_iff.mp hget).1
        refine hmax k r' hk ?_
        rw [List.getElem?_append_left hklt]
        exact hget

theorem enumFrom_drop {α : Type} (b s : Nat) (l : List α) :
    (List.enumFrom b l).drop s = List.enumFrom (b + s) (l.drop s) := by
  induction l generalizing b s with
  | nil => simp
  | cons hd tl ih =>
    cases s with
    | zero => simp
    | succ s' =>
      rw [List.enumFrom_cons, List.drop_succ_cons, List.drop_succ_cons, ih (b + 1) s']
      congr 1
      omega

theorem prev_scan_list_eq (entries : List RenderedLine) (j : Nat)
    (hj : j ≤ entries.length) :
    entries.enum.reverse.drop (entries.length - j) =
      (List.enumFrom 0 (entries.take j)).reverse := by
  have key : entries.enum = (entries.take j).enum ++
      List.enumFrom (entries.take j).length (entries.drop j) := by
    conv_lhs => rw [← List.take_append_drop j entries]
    rw [List.enum_append]
  rw [key, List.reverse_append]
  have hlen : ((List.enumFrom (entries.take j).length (entries.drop j)).reverse).length =
      entries.length - j := by
    simp
  rw [List.drop_left' hlen]
  rfl

theorem next_match_some {c : RenderedLineCollection} {i : Nat} {m : MatchedLine}
    (h : c.next_match i = some m) :
    ∃ r ms, c.entries[m.line]? = some r ∧ i < m.line ∧ r.found_matches = some ms ∧
      m.match_index = ms.length - 1 ∧
      ∀ k r', i < k → k < m.line → c.entries[k]? = some r' → r'.found_matches = none := by
  unfold RenderedLineCollection.next_match at h
  rw [show c.entries.enum = List.enumFrom 0 c.entries from rfl,
    enumFrom_drop 0 (i + 1) c.entries] at h
  obtain ⟨j, r, ms, hj, hline, hm, hmi, hmin⟩ := find_match_enumFrom_some h
  rw [List.getElem?_drop] at hj
  refine ⟨r, ms, ?_, by omega, hm, hmi, ?_⟩
  · rw [hline]
    have : 0 + (i + 1) + j = i + 1 + j := by omega
    rw [this]
    exact hj
  · intro k r' hik hkm hget
    have hkj : k - (i + 1) < j := by omega
    refine hmin (k - (i + 1)) r' hkj ?_
    rw [List.getElem?_drop]
    have : i + 1 + (k - (i + 1)) = k := by omega
    rw [this]
    exact hget

theorem previous_match_some {c : RenderedLineCollection} {j : Nat} {m : MatchedLine}
    (hj : j ≤ c.entries.length) (h : c.previous_match j = .ok (some m)) :
    ∃ r ms, c.entries[m.line]? = some r ∧ m.line < j ∧ r.found_matches = some ms ∧
      m.match_index = ms.length - 1 ∧
      ∀ k r', m.line < k → k < j → c.entries[k]? = some r' → r'.found_matches = none := by
  unfold RenderedLineCollection.previous_match at h
  rw [if_neg (by omega)] at h
  injection h with h
  rw [prev_scan_list_eq c.entries j hj] at h
  obtain ⟨j0, r, ms, hj0, hline, hm, hmi, hmax⟩ := find_match_enumFrom_reverse_some h
  have hj0lt : j0 < (c.entries.take j).length := (List.getElem?_eq_some_iff.mp hj0).1
  have hj0j : j0 < j := by
    rw [List.length_take] at hj0lt
    omega
  have hentry : c.entries[j0]? = some r := by
    rw [← List.getElem?_take_of_lt hj0j]
    exact hj0
  refine ⟨r, ms, ?_, by omega, hm, hmi, ?_⟩
  · rw [hline, Nat.zero_add]
    exact hentry
  · intro k r' hmk hkj hget
    have hk0 : j0 < k := by omega
    refine hmax k r' (by omega) ?_
    rw [List.getElem?_take_of_lt hkj]
    exact hget

/-! ### Claim theorems: C5, C7, C8, C10 -/

/-- C5: buffer_reverse_index(lineIndex, matchIndex) equals the sum of the
heights of all entries from lineIndex through the end of the buffer minus
the row offset of that match within its line; on the example buffer with
heights [1, 2, 1] and found_matches [0, 1] on line 1, it gives 2 at
(1, 1). -/
theorem C5_reverse_index_formula (c : RenderedLineCollection)
    (line_index match_index : Nat) (r : RenderedLine) (ms : List Nat) (off : Nat)
    (hr : c.entries[line_index]? = some r) (hm : r.found_matches = some ms)
    (ho : ms[match_index]? = some off) :
    c.buffer_reverse_index line_index match_index =
      .ok (((c.entries.drop line_index).map RenderedLine.height).sum - (off : Int)) ∧
    sampleBuffer.buffer_reverse_index 1 1 = .ok 2 := by
  refine ⟨?_, by decide⟩
  unfold RenderedLineCollection.buffer_reverse_index
  simp only [hr, hm, ho, heightSum_eq]

/-- Witness for C5 at the example buffer. -/
theorem C5_reverse_index_formula_witness :
    sampleBuffer.buffer_reverse_index 1 1 =
      .ok (((sampleBuffer.entries.drop 1).map RenderedLine.height).sum - (1 : Int)) ∧
    sampleBuffer.buffer_reverse_index 1 1 = .ok 2 :=
  C5_reverse_index_formula sampleBuffer 1 1 ⟨exampleText, 2, some [0, 1]⟩ [0, 1] 1
    (by decide) rfl rfl

/-- C7: for every buffer and split point n at most the length,
heightUpTo(n) + lastLinesHeight(length - n) equals totalHeight(). -/
theorem C7_height_split (c : RenderedLineCollection) (n : Nat) (h : n ≤ c.len) :
    c.height_up_to_index n + c.last_lines_height (c.len - n) = c.height := by
  unfold RenderedLineCollection.height_up_to_index RenderedLineCollection.last_lines_height
    RenderedLineCollection.height RenderedLineCollection.len at *
  rw [List.take_reverse]
  have hx : c.entries.length - (c.entries.length - n) = n := by omega
  rw [hx, heightSum_reverse, heightSum_eq, heightSum_eq, heightSum_eq,
    List.map_take, List.map_drop]
  exact List.sum_take_add_sum_drop _ n

/-- Witness for C7 on the example buffer at n = 2. -/
theorem C7_height_split_witness :
    sampleBuffer.height_up_to_index 2 + sampleBuffer.last_lines_height (sampleBuffer.len - 2) =
      sampleBuffer.height :=
  C7_height_split sampleBuffer 2 (by decide)

/-- C8: match_count on a record with absent found_matches, last_match on a
buffer in which no record carries a match, and indexing out of range all
hit the fatal path (a Rust panic, marked here by `.error ()`) rather than
producing an ordinary absence value. -/
theorem C8_fatal_preconditions (r : RenderedLine) (c : RenderedLineCollection) (i : Nat)
    (hr : r.found_matches = none)
    (hc : ∀ e ∈ c.entries, e.found_matches = none)
    (hi : c.len ≤ i) :
    r.match_count = .error () ∧ c.last_match = .error () ∧ c.index_entry i = .error () := by
  refine ⟨?_, ?_, ?_⟩
  · unfold RenderedLine.match_count
    rw [hr]
  · unfold RenderedLineCollection.last_match
    have hnone : find_match c.entries.reverse.enum = none := by
      rw [find_match_eq_none]
      intro p hp
      refine hc p.2 ?_
      have := snd_mem_of_mem_enumFrom (b := 0) (by exact hp)
      exact List.mem_reverse.mp this
    rw [hnone]
  · unfold RenderedLineCollection.index_entry
    unfold RenderedLineCollection.len at hi
    rw [List.getElem?_eq_none hi]

/-- Witness for C8: an empty record, the empty buffer, index 0. -/
theorem C8_fatal_preconditions_witness :
    (RenderedLine.mk exampleText 1 none).match_count = .error () ∧
    (RenderedLineCollection.mk []).last_match = .error () ∧
    (RenderedLineCollection.mk []).index_entry 0 = .error () :=
  C8_fatal_preconditions (RenderedLine.mk exampleText 1 none)
    (RenderedLineCollection.mk []) 0 rfl (by simp) (by decide)

/-- C10: previous_match called with an index strictly greater than the
buffer length hits the usize subtraction underflow (the fatal path, marked
`.error ()`) rather than the ordinary no-match absence result, while index
0 yields the ordinary absence result. -/
theorem C10_previous_match_underflow (c : RenderedLineCollection) (i : Nat) :
    (c.len < i → c.previous_match i = .error ()) ∧ c.previous_match 0 = .ok none := by
  constructor
  · intro h
    unfold RenderedLineCollection.previous_match
    unfold RenderedLineCollection.len at h
    rw [if_pos h]
  · unfold RenderedLineCollection.previous_match
    rw [if_neg (by omega)]
    have hlen : c.entries.enum.reverse.length = c.entries.length := by
      simp [List.enum_eq_enumFrom]
    rw [Nat.sub_zero, ← hlen, List.drop_length]
    rfl

/-- Witness for C10 on the empty buffer at index 1. -/
theorem C10_previous_match_underflow_witness :
    (RenderedLineCollection.mk []).previous_match 1 = .error () ∧
    (RenderedLineCollection.mk []).previous_match 0 = .ok none :=
  ⟨(C10_previous_match_underflow (RenderedLineCollection.mk []) 1).1 (by decide),
    (C10_previous_match_underflow (RenderedLineCollection.mk []) 1).2⟩

/-- C6: when next_match(i) yields a cursor and previous_match applied to
that cursor line index also yields a cursor, the returned line index never
overshoots past i, for any buffer with at least two records carrying
matches. -/
theorem C6_no_overshoot (c : RenderedLineCollection) (i : Nat) (m m' : MatchedLine)
    (htwo : 2 ≤ (c.entries.filter (fun r => r.found_matches.isSome)).length)
    (hn : c.next_match i = some m)
    (hp : c.previous_match m.line = .ok (some m')) :
    m'.line ≤ i := by
  obtain ⟨r, ms, hr, him, hm, hmi, hmin⟩ := next_match_some hn
  have hlen : m.line < c.entries.length := (List.getElem?_eq_some_iff.mp hr).1
  obtain ⟨r', ms', hr', hm'm, hm', hmi', hmax⟩ :=
    previous_match_some (Nat.le_of_lt hlen) hp
  by_contra hgt
  push_neg at hgt
  have hnone := hmin m'.line r' hgt hm'm hr'
  rw [hnone] at hm'
  exact Option.noConfusion hm'

/-- A two-match buffer used as the C6 witness: both lines carry a match. -/
def twoMatchBuffer : RenderedLineCollection :=
  ⟨[⟨exampleText, 1, some [0]⟩, ⟨exampleText, 1, some [0]⟩]⟩

/-- Witness for C6 on a buffer with two matching lines, from index 0. -/
theorem C6_no_overshoot_witness :
    twoMatchBuffer.next_match 0 = some ⟨1, 0⟩ ∧
    twoMatchBuffer.previous_match 1 = .ok (some ⟨0, 0⟩) ∧
    (MatchedLine.mk 0 0).line ≤ 0 :=
  ⟨by decide, by decide,
    C6_no_overshoot twoMatchBuffer 0 ⟨1, 0⟩ ⟨0, 0⟩ (by decide) (by decide) (by decide)⟩

/-- C9: last_match reports line indices counted from the newest (bottom)
entry while next_match works in chronological oldest-first indices: on a
buffer whose sole matching record sits at chronological index k with
k different from len - 1 - k, last_match returns line index len - 1 - k,
which differs from k, while next_match from any earlier chronological
index returns line index k itself. -/
theorem C9_index_conventions (c : RenderedLineCollection) (k : Nat) (r : RenderedLine)
    (ms : List Nat) (hk : c.entries[k]? = some r) (hm : r.found_matches = some ms)
    (hsole : ∀ j r', c.entries[j]? = some r' → j ≠ k → r'.found_matches = none)
    (hne : k ≠ c.len - 1 - k) :
    (c.last_match = .ok ⟨c.len - 1 - k, ms.length - 1⟩ ∧ c.len - 1 - k ≠ k) ∧
    ∀ i, i < k → c.next_match i = some ⟨k, ms.length - 1⟩ := by
  have hklen : k < c.entries.length := (List.getElem?_eq_some_iff.mp hk).1
  unfold RenderedLineCollection.len at *
  constructor
  · constructor
    · unfold RenderedLineCollection.last_match
      have hrev : c.entries.reverse[c.entries.length - 1 - k]? = c.entries[k]? := by
        rw [List.getElem?_reverse (by omega)]
        congr 1
        omega
      have heq : find_match (List.enumFrom 0 c.entries.reverse) =
          some ⟨0 + (c.entries.length - 1 - k), ms.length - 1⟩ := by
        refine find_match_enumFrom_eq (by rw [hrev]; exact hk) hm ?_
        intro k' r' hk' hget
        have hk'len : k' < c.entries.reverse.length :=
          (List.getElem?_eq_some_iff.mp hget).1
        rw [List.length_reverse] at hk'len
        rw [List.getElem?_reverse (by omega)] at hget
        exact hsole (c.entries.length - 1 - k') r' hget (by omega)
      rw [show c.entries.reverse.enum = List.enumFrom 0 c.entries.reverse from rfl, heq]
      simp
    · omega
  · intro i hik
    unfold RenderedLineCollection.next_match
    rw [show c.entries.enum = List.enumFrom 0 c.entries from rfl,
      enumFrom_drop 0 (i + 1) c.entries]
    have heq := find_match_enumFrom_eq (b := 0 + (i + 1)) (j := k - (i + 1))
      (l := c.entries.drop (i + 1)) (r := r) ?_ hm ?_
    · rw [heq]
      congr 2
      omega
    · rw [List.getElem?_drop]
      have : i + 1 + (k - (i + 1)) = k := by omega
      rw [this]
      exact hk
    · intro k' r' hk' hget
      rw [List.getElem?_drop] at hget
      exact hsole (i + 1 + k') r' hget (by omega)

/-- The C9 witness buffer: the sole matching record at chronological
index 2 of three. -/
def soleTailBuffer : RenderedLineCollection :=
  ⟨[⟨exampleText, 1, none⟩, ⟨exampleText, 1, none⟩, ⟨exampleText, 1, some [0]⟩]⟩

/-- Witness for C9: the sole match at chronological index 2 is reported by
last_match as line 0 and by next_match(1) as line 2. -/
theorem C9_index_conventions_witness :
    (soleTailBuffer.last_match = .ok ⟨soleTailBuffer.len - 1 - 2, 0⟩ ∧
      soleTailBuffer.len - 1 - 2 ≠ 2) ∧
    soleTailBuffer.next_match 1 = some ⟨2, 0⟩ := by
  have h := C9_index_conventions soleTailBuffer 2 ⟨exampleText, 1, some [0]⟩ [0]
    (by decide) rfl ?_ (by decide)
  · exact ⟨h.1, h.2 1 (by decide)⟩
  · intro j r' hj hjne
    have hjlen : j < soleTailBuffer.entries.length := (List.getElem?_eq_some_iff.mp hj).1
    have hj3 : j < 3 := hjlen
    interval_cases j
    · simp only [show soleTailBuffer.entries[0]? = some ⟨exampleText, 1, none⟩ from rfl,
        Option.some.injEq] at hj
      rw [← hj]
    · simp only [show soleTailBuffer.entries[1]? = some ⟨exampleText, 1, none⟩ from rfl,
        Option.some.injEq] at hj
      rw [← hj]
    · omega

/-! ### Helper lemmas for the viewport claims -/

/-- The invariant the spec states for found_matches: presence implies at
least one offset, every offset below the height of the line. -/
def matchesWellFormed (r : RenderedLine) : Prop :=
  match r.found_matches with
  | some ms => ms ≠ [] ∧ ∀ off ∈ ms, (off : Int) < r.height
  | none => True

instance matchesWellFormed_decidable (r : RenderedLine) :
    Decidable (matchesWellFormed r) := by
  unfold matchesWellFormed
  cases r.found_matches <;> exact inferInstance

theorem matchesWellFormed_spec {r : RenderedLine} {ms : List Nat}
    (h : matchesWellFormed r) (hms : r.found_matches = some ms) :
    ms ≠ [] ∧ ∀ off ∈ ms, (off : Int) < r.height := by
  unfold matchesWellFormed at h
  rw [hms] at h
  exact h

theorem heightSum_nonneg {l : List RenderedLine} (hpos : ∀ r ∈ l, 0 ≤ r.height) :
    0 ≤ heightSum l := by
  rw [heightSum_eq]
  refine List.sum_nonneg ?_
  intro x hx
  obtain ⟨r, hr, rfl⟩ := List.mem_map.mp hx
  exact hpos r hr

theorem heightSum_eq_natSum (l : List RenderedLine) (hpos : ∀ r ∈ l, 0 ≤ r.height) :
    heightSum l = (((l.map (fun r => r.height.toNat)).sum : Nat) : Int) := by
  induction l with
  | nil => simp [heightSum]
  | cons hd tl ih =>
    have h0 : (0 : Int) ≤ hd.height := hpos hd (List.mem_cons_self _ _)
    have hrec := ih (fun r hr => hpos r (List.mem_cons_of_mem _ hr))
    rw [heightSum_eq, List.map_cons, List.sum_cons, ← heightSum_eq, hrec,
      List.map_cons, List.sum_cons]
    omega

theorem enum_snd_map_sum {α : Type} (f : α → Nat) (b : Nat) (l : List α) :
    ((List.enumFrom b l).map (fun p => f p.2)).sum = (l.map f).sum := by
  induction l generalizing b with
  | nil => simp
  | cons hd tl ih => simp [List.enumFrom_cons, ih]

/-- With reverse_index 0 and a limit at least the total height of the
scanned lines, the viewport scan returns exactly the first enumerated line
carrying matches, at match index 0 (the first offset of the line). -/
theorem viewport_scan_covering (limit : Nat) (l : List (Nat × RenderedLine)) :
    ∀ acc : Nat,
      acc + (l.map (fun p => p.2.height.toNat)).sum ≤ limit →
      (∀ p ∈ l, 1 ≤ p.2.height.toNat) →
      (∀ p ∈ l, ∀ ms, p.2.found_matches = some ms →
        ms ≠ [] ∧ ∀ off ∈ ms, off < p.2.height.toNat) →
      viewport_scan 0 limit acc l =
        (find_match l).map (fun m => MatchedLine.mk m.line 0) := by
  induction l with
  | nil =>
    intro acc _ _ _
    rfl
  | cons hd rest ih =>
    obtain ⟨i, line⟩ := hd
    intro acc hbound hpos hinv
    rw [List.map_cons, List.sum_cons] at hbound
    dsimp only at hbound
    cases hfm : line.found_matches with
    | some ms =>
      obtain ⟨hne, hoff⟩ := hinv (i, line) (List.mem_cons_self _ _) ms hfm
      dsimp only at hoff
      obtain ⟨off0, tl, rfl⟩ := List.exists_cons_of_ne_nil hne
      have h1 : acc + off0 ≤ limit := by
        have hlt := hoff off0 (List.mem_cons_self _ _)
        omega
      simp only [viewport_scan, find_match, hfm]
      rw [if_pos (Nat.zero_le acc)]
      simp [first_visible_offset, h1]
    | none =>
      simp only [viewport_scan, find_match, hfm]
      rw [if_pos (Nat.zero_le acc)]
      cases rest with
      | nil =>
        simp [viewport_scan, find_match]
      | cons hd2 rest2 =>
        have hp2 : 1 ≤ hd2.2.height.toNat :=
          hpos hd2 (List.mem_cons_of_mem _ (List.mem_cons_self _ _))
        have hsum2 : (List.map (fun p => p.2.height.toNat) (hd2 :: rest2)).sum =
            hd2.2.height.toNat + (List.map (fun p => p.2.height.toNat) rest2).sum := by
          simp
        have hnb : ¬ limit ≤ acc + line.height.toNat := by omega
        rw [if_neg hnb]
        exact ih (acc + line.height.toNat) (by omega)
          (fun p hp => hpos p (List.mem_cons_of_mem _ hp))
          (fun p hp => hinv p (List.mem_cons_of_mem _ hp))

/-! ### Claim theorems: C1, C2, C3, C4 -/

/-- The empty search query. -/
def emptyNeedle : String := ""

/-- A Highlighter stub returning no row offsets. -/
def hlNone : String → List Nat := fun _ => []

/-- A previously matching record used in the C1 counterexample; its text is
the empty string, which (like every string) contains the empty needle. -/
def staleLine : RenderedLine := RenderedLine.mk exampleText 1 (some [0])

/-- C1 counterexample: calling search with the empty needle on a line whose
found_matches is present returns true (the empty string is a substring of
every text), not false, and found_matches does not become absent. -/
theorem C1_counterexample :
    (staleLine.search emptyNeedle hlNone).2.1 = true ∧
    (staleLine.search emptyNeedle hlNone).1.found_matches ≠ none := by
  decide

/-- C1 amended: for a needle that is not contained in the text of the line
(which excludes the empty needle, contained in every text), search on a
record with found_matches present returns false and leaves found_matches
absent. -/
theorem C1_amended (r : RenderedLine) (needle : String) (hl : String → List Nat)
    (hpresent : r.found_matches.isSome = true)
    (hnc : lineContains r.line needle = false) :
    (r.search needle hl).2.1 = false ∧
    (r.search needle hl).1.found_matches = none := by
  obtain ⟨ms, hms⟩ := Option.isSome_iff_exists.mp hpresent
  simp [RenderedLine.search, RenderedLine.update_found_matches, hnc, hms]

/-- Text and needle for the C1 witness. -/
def infoText : String := "INFO alpha"

/-- Needle not occurring in infoText. -/
def missingNeedle : String := "zzz"

/-- Witness for C1 amended on a concrete non-matching query. -/
theorem C1_amended_witness :
    ((RenderedLine.mk infoText 1 (some [0])).search missingNeedle hlNone).2.1 = false ∧
    ((RenderedLine.mk infoText 1 (some [0])).search missingNeedle hlNone).1.found_matches
      = none :=
  C1_amended (RenderedLine.mk infoText 1 (some [0])) missingNeedle hlNone
    (by decide) (by decide)

/-- C3 counterexample: on the example buffer (heights [1, 2, 1], matches
[0, 1] on line 1) the viewport with reverse_index 0 and 4 rows does not
produce the cursor (line 1, match 1). -/
theorem C3_counterexample :
    sampleBuffer.viewport_match ⟨0, 4⟩ ≠ some ⟨1, 1⟩ := by
  decide

/-- C3 amended: that viewport query returns cursor (line 1, match 0): the
inner loop returns the first match offset of the line, not the last. -/
theorem C3_amended :
    sampleBuffer.viewport_match ⟨0, 4⟩ = some ⟨1, 0⟩ := by
  decide

/-- C2 counterexample: with a viewport covering the whole example buffer,
viewport_match returns match index 0 while last_match returns match index
1, so the two cursors differ in their match index. -/
theorem C2_counterexample :
    sampleBuffer.viewport_match ⟨0, 4⟩ = some ⟨1, 0⟩ ∧
    sampleBuffer.last_match = .ok ⟨1, 1⟩ ∧
    (MatchedLine.mk 1 0).match_index ≠ (MatchedLine.mk 1 1).match_index := by
  decide

/-- C2 amended: for a viewport with reverse_index 0 covering the whole
buffer (with positive heights and well formed matches), viewport_match
returns a cursor with the same line index as last_match but match index 0,
which equals the match index of last_match only when the newest matching
line has exactly one match. -/
theorem C2_amended (c : RenderedLineCollection) (v : Viewport)
    (hrev : v.reverse_index = 0)
    (hcover : c.height ≤ (v.limit : Int))
    (hpos : ∀ r ∈ c.entries, 1 ≤ r.height)
    (hinv : ∀ r ∈ c.entries, matchesWellFormed r)
    (hex : ∃ r ∈ c.entries, r.found_matches.isSome = true) :
    ∃ m, c.last_match = .ok m ∧ c.viewport_match v = some ⟨m.line, 0⟩ := by
  obtain ⟨r0, hr0mem, hr0⟩ := hex
  have hfm_ne : find_match c.entries.reverse.enum ≠ none := by
    intro hnone
    rw [find_match_eq_none] at hnone
    obtain ⟨idx, hidx⟩ := mem_enumFrom_of_mem (List.mem_reverse.mpr hr0mem) 0
    have hz := hnone (idx, r0) hidx
    rw [hz] at hr0
    simp at hr0
  obtain ⟨m, hm⟩ := Option.ne_none_iff_exists'.mp hfm_ne
  refine ⟨m, ?_, ?_⟩
  · unfold RenderedLineCollection.last_match
    rw [hm]
  · unfold RenderedLineCollection.viewport_match
    rw [hrev]
    have hscan := viewport_scan_covering v.limit c.entries.reverse.enum 0 ?hbound ?hpos2 ?hinv2
    · rw [hscan, hm]
      rfl
    case hbound =>
      rw [Nat.zero_add]
      rw [show c.entries.reverse.enum = List.enumFrom 0 c.entries.reverse from rfl,
        enum_snd_map_sum (fun r => r.height.toNat) 0 c.entries.reverse]
      have hposrev : ∀ r ∈ c.entries.reverse, 0 ≤ r.height := by
        intro r hr
        have := hpos r (List.mem_reverse.mp hr)
        omega
      have hns := heightSum_eq_natSum c.entries.reverse hposrev
      rw [heightSum_reverse] at hns
      unfold RenderedLineCollection.height at hcover
      rw [hns] at hcover
      omega
    case hpos2 =>
      intro p hp
      have hmem : p.2 ∈ c.entries := List.mem_reverse.mp (snd_mem_of_mem_enumFrom hp)
      have := hpos p.2 hmem
      omega
    case hinv2 =>
      intro p hp ms hms
      have hmem : p.2 ∈ c.entries := List.mem_reverse.mp (snd_mem_of_mem_enumFrom hp)
      obtain ⟨hne, hoff⟩ := matchesWellFormed_spec (hinv p.2 hmem) hms
      refine ⟨hne, ?_⟩
      intro off hoffmem
      have h1 := hoff off hoffmem
      have h2 := hpos p.2 hmem
      omega

/-- Witness for C2 amended on the example buffer with a full viewport. -/
theorem C2_amended_witness :
    ∃ m, sampleBuffer.last_match = .ok m ∧
      sampleBuffer.viewport_match ⟨0, 4⟩ = some ⟨m.line, 0⟩ :=
  C2_amended sampleBuffer ⟨0, 4⟩ rfl (by decide) (by decide) (by decide) (by decide)

/-- C4 counterexample: for the example buffer and the cursor (line 1,
match 1), the match row sits at bottom-anchored distance 2, inside the
interval [0, 2] of the viewport with reverse_index 0 and 2 rows, yet
is_match_in_viewport returns false: the implementation compares
accumulated height plus offsets against the limit, not the match row. -/
theorem C4_counterexample :
    sampleBuffer.buffer_reverse_index 1 1 = .ok 2 ∧
    (0 : Nat) ≤ 2 ∧ (2 : Int) ≤ ((Viewport.mk 0 2).limit : Int) ∧
    sampleBuffer.is_match_in_viewport ⟨1, 1⟩ ⟨0, 2⟩ = .ok false := by
  decide

/-- C4 amended: is_match_in_viewport ignores the match index of the
cursor; it returns true exactly when the accumulated height from the
matched line to the end of the buffer reaches reverse_index and some
offset of that line keeps accumulated height plus offset within limit().
It does remain false whenever the row of the addressed match lies strictly
above limit(). -/
theorem C4_amended (c : RenderedLineCollection) (m : MatchedLine) (v : Viewport)
    (line : RenderedLine) (ms : List Nat)
    (hline : c.entries[m.line]? = some line)
    (hfm : line.found_matches = some ms)
    (hpos : ∀ r ∈ c.entries, 0 ≤ r.height) :
    (c.is_match_in_viewport m v = .ok true ↔
      (v.reverse_index ≤ (heightSum (c.entries.drop m.line)).toNat ∧
        ∃ off ∈ ms, (heightSum (c.entries.drop m.line)).toNat + off ≤ v.limit)) ∧
    (∀ off, ms[m.match_index]? = some off →
      (v.limit : Int) < heightSum (c.entries.drop m.line) - (off : Int) →
      c.is_match_in_viewport m v = .ok false) := by
  have hSnn : 0 ≤ heightSum (c.entries.drop m.line) :=
    heightSum_nonneg (fun r hr => hpos r (List.drop_subset _ _ hr))
  constructor
  · unfold RenderedLineCollection.is_match_in_viewport
    simp only [hline]
    by_cases hcond : v.reverse_index ≤ (heightSum (c.entries.drop m.line)).toNat
    · rw [if_pos hcond, hfm]
      simp only [Except.ok.injEq, List.any_eq_true, decide_eq_true_eq]
      constructor
      · intro h
        exact ⟨hcond, h⟩
      · intro h
        exact h.2
    · rw [if_neg hcond]
      simp only [Except.ok.injEq, Bool.false_eq_true, false_iff]
      intro h
      exact hcond h.1
  · intro off hoff hlt
    have hofflt : (heightSum (c.entries.drop m.line)).toNat > v.limit := by omega
    unfold RenderedLineCollection.is_match_in_viewport
    simp only [hline]
    by_cases hcond : v.reverse_index ≤ (heightSum (c.entries.drop m.line)).toNat
    · rw [if_pos hcond, hfm]
      dsimp only
      congr 1
      rw [List.any_eq_false]
      intro x hx
      simp only [decide_eq_true_eq]
      omega
    · rw [if_neg hcond]

/-- Witness for C4 amended: the cursor (line 1, match 1) on the example
buffer with a one-row viewport, whose addressed row lies strictly above
the limit. -/
theorem C4_amended_witness :
    sampleBuffer.is_match_in_viewport ⟨1, 1⟩ ⟨0, 1⟩ = .ok false :=
  (C4_amended sampleBuffer ⟨1, 1⟩ ⟨0, 1⟩ ⟨exampleText, 2, some [0, 1]⟩ [0, 1]
    (by decide) rfl (by decide)).2 1 rfl (by decide)
